import Mathlib

/-!
Verification development for the `president_classifier` repository
(`PA2_code/transformer.py` and `PA2_code/main.py`).

The source computes with IEEE floating-point tensors.  The embedding works
over `ℚ` and abstracts the three transcendental maps the source uses as
explicit function parameters:

* `e`  stands for the exponential (`F.softmax`, `torch.exp`),
* `lg` stands for the natural logarithm (inside `F.cross_entropy`),
* `sq` stands for the square root (`**-0.5` scaling, layer-norm denominator).

Properties that depend on those maps take explicit hypotheses (for example
positivity of `e`), which the real exponential satisfies.

Tensors are total functions out of `Fin`-indexed shapes, so the shape
bookkeeping of the source becomes type-level information.  The `device`
placement argument of the source's `forward` methods is a memory-layout
concern with no content in this embedding and is dropped, following the
reconciliation the specification prescribes for the call-site mismatch.
Fallible steps (index errors, shape-mismatch errors, division by zero)
are modelled with `Option`.
-/

namespace PresidentClassifier

/-- Matrix of rationals with `m` rows and `n` columns. -/
abbrev Mat (m n : ℕ) := Fin m → Fin n → ℚ

/-- A rank-3 tensor of shape (batch `B`, time `T`, channels `C`). -/
abbrev Tensor3 (B T C : ℕ) := Fin B → Fin T → Fin C → ℚ

/-- Dot product of two vectors. -/
def dotProd {n : ℕ} (f g : Fin n → ℚ) : ℚ := ∑ c, f c * g c

/-- Bias-free linear layer: `nn.Linear(n, m, bias=False)` applied to one
vector, i.e. `x ↦ W x` with weight matrix `W : m × n`. -/
def linearNB {m n : ℕ} (W : Mat m n) (x : Fin n → ℚ) : Fin m → ℚ :=
  fun o => dotProd (W o) x

/-- Linear layer with bias: `nn.Linear(n, m)` applied to one vector. -/
def linearB {m n : ℕ} (W : Mat m n) (b : Fin m → ℚ) (x : Fin n → ℚ) : Fin m → ℚ :=
  fun o => dotProd (W o) x + b o

/-- Rectified linear unit `F.relu`. -/
def relu (x : ℚ) : ℚ := max x 0

/-- The exponential of a possibly masked score: `masked_fill` writes `-inf`
into masked positions (modelled as `none`) and the exponential of `-inf`
is `0`. -/
def maskedExp {T : ℕ} (e : ℚ → ℚ) (row : Fin T → Option ℚ) : Fin T → ℚ :=
  fun j =>
    match row j with
    | none => 0
    | some a => e a

/-- Softmax along a row of possibly masked scores (`F.softmax(..., dim=-1)`
after a `masked_fill` with `-inf`). -/
def softmaxMasked {T : ℕ} (e : ℚ → ℚ) (row : Fin T → Option ℚ) : Fin T → ℚ :=
  fun j => maskedExp e row j / ∑ j', maskedExp e row j'

/-- Softmax along a plain (unmasked) row of scores. -/
def softmax {T : ℕ} (e : ℚ → ℚ) (row : Fin T → ℚ) : Fin T → ℚ :=
  softmaxMasked e (fun j => some (row j))

/-- Parameters of one self-attention head (`Head.__init__`): three bias-free
projections and the decoding flag.  The `tril` buffer is a pure function of
`block_size` and is modelled by `trilBuffer` below. -/
structure Head (n_embd head_size : ℕ) where
  key : Mat head_size n_embd
  query : Mat head_size n_embd
  value : Mat head_size n_embd
  decoding : Bool

/-- The registered buffer `torch.tril(torch.ones(block_size, block_size))`. -/
def trilBuffer (block_size : ℕ) : Mat block_size block_size :=
  fun i j => if (j : ℕ) ≤ (i : ℕ) then 1 else 0

/-- The slice `tril[:T, :T]` used by `Head.forward`, as a `T × T` matrix.
When `T > block_size` the actual slice is smaller than `T × T` and the
subsequent `masked_fill` against the `T × T` affinity matrix fails, so the
slice is modelled as `none` in that case. -/
def trilSlice (block_size T : ℕ) : Option (Mat T T) :=
  if h : T ≤ block_size then
    some (fun i j => trilBuffer block_size (Fin.castLE h i) (Fin.castLE h j))
  else none

/-- Raw attention affinities of `Head.forward`:
`q @ k.transpose(-2,-1) * k.shape[-1]**-0.5`, with the inverse square root
of `head_size` expressed through the abstract square root `sq`. -/
def Head.scores (sq : ℚ → ℚ) {n_embd head_size B T : ℕ}
    (H : Head n_embd head_size) (x : Tensor3 B T n_embd) : Fin B → Mat T T :=
  fun b i j =>
    dotProd (linearNB H.query (x b i)) (linearNB H.key (x b j)) * (1 / sq (head_size : ℚ))

/-- Normalized attention weights of `Head.forward`: in decoding mode the
affinities at positions where the `tril` slice is `0` are filled with `-inf`
before the softmax; in non-decoding mode the softmax is applied as is. -/
def Head.weights (e sq : ℚ → ℚ) (block_size : ℕ) {n_embd head_size B T : ℕ}
    (H : Head n_embd head_size) (x : Tensor3 B T n_embd) :
    Option (Fin B → Mat T T) :=
  if H.decoding then
    (trilSlice block_size T).map (fun m => fun b i =>
      softmaxMasked e (fun j => if m i j = 0 then none else some (Head.scores sq H x b i j)))
  else
    some (fun b i => softmax e (Head.scores sq H x b i))

/-- Output of `Head.forward`: the weighted aggregation `wei @ v` of the
value vectors. -/
def Head.forward (e sq : ℚ → ℚ) (block_size : ℕ) {n_embd head_size B T : ℕ}
    (H : Head n_embd head_size) (x : Tensor3 B T n_embd) :
    Option (Tensor3 B T head_size) :=
  (Head.weights e sq block_size H x).map (fun w => fun b t h =>
    ∑ j, w b t j * linearNB H.value (x b j) h)

/-- Parameters of `MultiHeadAttention.__init__`: `num_heads` independent
heads and the declared output projection `nn.Linear(head_size * num_heads,
n_embd)` (weight and bias).  The concatenated feature axis is indexed by
`Fin (num_heads * head_size)`; index `j` belongs to head `j / head_size`
at column `j % head_size`. -/
structure MultiHeadAttention (n_embd head_size num_heads : ℕ) where
  heads : Fin num_heads → Head n_embd head_size
  projW : Mat n_embd (num_heads * head_size)
  projB : Fin n_embd → ℚ

/-- Output of `MultiHeadAttention.forward`:
`torch.cat([h(x) for h in self.heads], dim=-1)`.  The declared projection
`self.proj` is not applied (the line applying it is commented out in the
source).  Defined when every head's forward pass is defined. -/
def MultiHeadAttention.forward (e sq : ℚ → ℚ) (block_size : ℕ)
    {n_embd head_size num_heads B T : ℕ}
    (M : MultiHeadAttention n_embd head_size num_heads) (x : Tensor3 B T n_embd) :
    Option (Tensor3 B T (num_heads * head_size)) :=
  if h : ∀ i : Fin num_heads, (Head.forward e sq block_size (M.heads i) x).isSome then
    some (fun b t j =>
      ((Head.forward e sq block_size (M.heads j.divNat) x).get (h j.divNat)) b t j.modNat)
  else none

/-- Parameters of `FeedFoward.__init__` (name kept from the source):
`nn.Linear(n_embd, 4*n_embd)`, ReLU, `nn.Linear(4*n_embd, n_embd)`. -/
structure FeedFoward (n_embd : ℕ) where
  w1 : Mat (4 * n_embd) n_embd
  b1 : Fin (4 * n_embd) → ℚ
  w2 : Mat n_embd (4 * n_embd)
  b2 : Fin n_embd → ℚ

/-- Output of `FeedFoward.forward` on one position vector. -/
def FeedFoward.forward {n_embd : ℕ} (F : FeedFoward n_embd) (x : Fin n_embd → ℚ) :
    Fin n_embd → ℚ :=
  linearB F.w2 F.b2 (fun h => relu (linearB F.w1 F.b1 x h))

/-- Learned parameters of an `nn.LayerNorm(n_embd)`. -/
structure LayerNormParams (n_embd : ℕ) where
  gamma : Fin n_embd → ℚ
  beta : Fin n_embd → ℚ

/-- Layer normalization over the channel axis of one position vector, with
the default `eps = 1e-5` and the square root abstracted as `sq`. -/
def layerNorm (sq : ℚ → ℚ) {n_embd : ℕ} (P : LayerNormParams n_embd)
    (x : Fin n_embd → ℚ) : Fin n_embd → ℚ :=
  fun c =>
    (x c - (∑ c', x c') / (n_embd : ℚ)) /
        sq ((∑ c', (x c' - (∑ c'', x c'') / (n_embd : ℚ)) ^ 2) / (n_embd : ℚ) + 1 / 100000) *
        P.gamma c +
      P.beta c

/-- Parameters of `Block.__init__`.  The source computes
`head_size = n_embd // n_head`; the embedding width is therefore
`num_heads * head_size`, which encodes the configuration invariant
`n_embd % n_head == 0`. -/
structure Block (head_size num_heads : ℕ) where
  sa : MultiHeadAttention (num_heads * head_size) head_size num_heads
  ffwd : FeedFoward (num_heads * head_size)
  ln1 : LayerNormParams (num_heads * head_size)
  ln2 : LayerNormParams (num_heads * head_size)

/-- Output of `Block.forward`:
`x = x + sa(ln1(x)); x = x + ffwd(ln2(x))` (pre-norm residual sublayers). -/
def Block.forward (e sq : ℚ → ℚ) (block_size : ℕ) {head_size num_heads B T : ℕ}
    (blk : Block head_size num_heads) (x : Tensor3 B T (num_heads * head_size)) :
    Option (Tensor3 B T (num_heads * head_size)) :=
  (MultiHeadAttention.forward e sq block_size blk.sa
      (fun b t => layerNorm sq blk.ln1 (x b t))).map (fun a =>
    fun b t c =>
      (x b t c + a b t c) +
        FeedFoward.forward blk.ffwd
          (layerNorm sq blk.ln2 (fun c' => x b t c' + a b t c')) c)

/-- Sequential application of a list of transformer blocks
(`nn.Sequential(*[Block(...) for _ in range(n_layer)])`). -/
def runBlocks (e sq : ℚ → ℚ) (block_size : ℕ) {head_size num_heads B T : ℕ} :
    List (Block head_size num_heads) → Tensor3 B T (num_heads * head_size) →
    Option (Tensor3 B T (num_heads * head_size))
  | [], x => some x
  | blk :: rest, x =>
    match Block.forward e sq block_size blk x with
    | none => none
    | some y => runBlocks e sq block_size rest y

/-- Parameters of `Classifier.__init__`: two fully connected layers. -/
structure Classifier (input_size hidden_size n_output : ℕ) where
  fc1W : Mat hidden_size input_size
  fc1b : Fin hidden_size → ℚ
  fc2W : Mat n_output hidden_size
  fc2b : Fin n_output → ℚ

/-- Output of `Classifier.forward` on one example: first layer, ReLU,
second layer, then `F.softmax(x, dim=1)` over the class axis. -/
def Classifier.forward (e : ℚ → ℚ) {input_size hidden_size n_output : ℕ}
    (C : Classifier input_size hidden_size n_output) (x : Fin input_size → ℚ) :
    Fin n_output → ℚ :=
  softmax e (linearB C.fc2W C.fc2b (fun h => relu (linearB C.fc1W C.fc1b x h)))

/-- Parameters of `Encoder.__init__`: token and position embedding tables,
`n_layer` transformer blocks (the source constructs them all with
`decoding=False`), the final layer norm, and the classifier head. -/
structure Encoder (vocab_size block_size head_size num_heads n_hidden n_output : ℕ) where
  token_embedding_table : Mat vocab_size (num_heads * head_size)
  position_embedding_table : Mat block_size (num_heads * head_size)
  blocks : List (Block head_size num_heads)
  ln_f : LayerNormParams (num_heads * head_size)
  classifier : Classifier (num_heads * head_size) n_hidden n_output

/-- The construction invariant of `Encoder.__init__`: every attention head
in every block is built with `decoding=False`. -/
def Encoder.nonCausal {vocab_size block_size head_size num_heads n_hidden n_output : ℕ}
    (M : Encoder vocab_size block_size head_size num_heads n_hidden n_output) : Prop :=
  ∀ blk ∈ M.blocks, ∀ i, (blk.sa.heads i).decoding = false

/-- Output of `Encoder.forward`: token plus position embeddings, the block
stack, the final layer norm, the mean over the time axis (`torch.mean(x,
dim=1)`), then the classifier head.  The position-embedding lookup
`torch.arange(T)` into a table of size `block_size` requires
`T ≤ block_size`; otherwise the lookup fails (`none`). -/
def Encoder.forward (e sq : ℚ → ℚ)
    {vocab_size block_size head_size num_heads n_hidden n_output B T : ℕ}
    (M : Encoder vocab_size block_size head_size num_heads n_hidden n_output)
    (idx : Fin B → Fin T → Fin vocab_size) : Option (Fin B → Fin n_output → ℚ) :=
  if h : T ≤ block_size then
    (runBlocks e sq block_size M.blocks (fun b t c =>
        M.token_embedding_table (idx b t) c +
          M.position_embedding_table (Fin.castLE h t) c)).map (fun x =>
      fun b =>
        Classifier.forward e M.classifier
          (fun c => (∑ t, layerNorm sq M.ln_f (x b t) c) / (T : ℚ)))
  else none

/-- Parameters of `Decoder.__init__`: embeddings, blocks (the source
constructs them all with `decoding=True`), final layer norm, and the
vocabulary projection `lm_head`. -/
structure Decoder (vocab_size block_size head_size num_heads : ℕ) where
  token_embedding_table : Mat vocab_size (num_heads * head_size)
  position_embedding_table : Mat block_size (num_heads * head_size)
  blocks : List (Block head_size num_heads)
  ln_f : LayerNormParams (num_heads * head_size)
  lmW : Mat vocab_size (num_heads * head_size)
  lmb : Fin vocab_size → ℚ

/-- The construction invariant of `Decoder.__init__`: every attention head
in every block is built with `decoding=True`. -/
def Decoder.causal {vocab_size block_size head_size num_heads : ℕ}
    (M : Decoder vocab_size block_size head_size num_heads) : Prop :=
  ∀ blk ∈ M.blocks, ∀ i, (blk.sa.heads i).decoding = true

/-- Logits of `Decoder.forward`: embeddings, block stack, final layer norm,
`lm_head`.  As for the encoder, the position lookup requires
`T ≤ block_size`. -/
def Decoder.forward (e sq : ℚ → ℚ) {vocab_size block_size head_size num_heads B T : ℕ}
    (M : Decoder vocab_size block_size head_size num_heads)
    (idx : Fin B → Fin T → Fin vocab_size) : Option (Tensor3 B T vocab_size) :=
  if h : T ≤ block_size then
    (runBlocks e sq block_size M.blocks (fun b t c =>
        M.token_embedding_table (idx b t) c +
          M.position_embedding_table (Fin.castLE h t) c)).map (fun x =>
      fun b t => linearB M.lmW M.lmb (layerNorm sq M.ln_f (x b t)))
  else none

/-- The mean categorical cross-entropy `F.cross_entropy(logits, targets)`
over `N` rows of `C` logits each, written with the abstract exponential and
logarithm: each row contributes `log (∑ c, exp (z c)) - z (target)`. -/
def crossEntropy (e lg : ℚ → ℚ) {N C : ℕ} (logits : Fin N → Fin C → ℚ)
    (targets : Fin N → Fin C) : ℚ :=
  (∑ n, (lg (∑ c, e (logits n c)) - logits n (targets n))) / (N : ℕ)

/-- The target branch of `Decoder.forward`: when targets are supplied, the
batch and time axes are flattened and the mean cross-entropy of the logits
against the targets is returned alongside the logits. -/
def Decoder.forwardWithTargets (e sq lg : ℚ → ℚ)
    {vocab_size block_size head_size num_heads B T : ℕ}
    (M : Decoder vocab_size block_size head_size num_heads)
    (idx targets : Fin B → Fin T → Fin vocab_size) :
    Option (Tensor3 B T vocab_size × ℚ) :=
  (Decoder.forward e sq M idx).map (fun logits =>
    (logits,
      crossEntropy e lg
        (fun p : Fin (B * T) => logits p.divNat p.modNat)
        (fun p : Fin (B * T) => targets p.divNat p.modNat)))

/-- One iteration of the loop in `Decoder.generate`: crop the running
sequence to the last `block_size` tokens, run the forward pass, keep the
logits of the final time step, and soft-max them into a distribution.
Selecting the final time step (`logits[:, -1, :]`) fails on an empty
sequence. -/
def Decoder.generateStep (e sq : ℚ → ℚ) {vocab_size block_size head_size num_heads : ℕ}
    (M : Decoder vocab_size block_size head_size num_heads) (idx : List (Fin vocab_size)) :
    Option (Fin vocab_size → ℚ) :=
  (Decoder.forward e sq M
      (fun (_ : Fin 1) (t : Fin (idx.drop (idx.length - block_size)).length) =>
        (idx.drop (idx.length - block_size)).get t)).bind (fun logits =>
    if h : 0 < (idx.drop (idx.length - block_size)).length then
      some (softmax e (logits 0 ⟨(idx.drop (idx.length - block_size)).length - 1,
        Nat.sub_lt h Nat.one_pos⟩))
    else none)

/-- `Decoder.generate`: repeat `max_new_tokens` times the step above and
append one token sampled from the resulting distribution.  The
`torch.multinomial` draw is abstracted as the sampler `pick`; the
length/no-corruption facts below hold for every sampler. -/
def Decoder.generate (e sq : ℚ → ℚ) {vocab_size block_size head_size num_heads : ℕ}
    (M : Decoder vocab_size block_size head_size num_heads)
    (pick : (Fin vocab_size → ℚ) → Fin vocab_size) :
    List (Fin vocab_size) → ℕ → Option (List (Fin vocab_size))
  | idx, 0 => some idx
  | idx, n + 1 =>
    (Decoder.generateStep e sq M idx).bind (fun probs =>
      Decoder.generate e sq M pick (idx ++ [pick probs]) n)

/-! Functions of `PA2_code/main.py`. -/

/-- Length of the longest sequence in a batch (what
`pad_sequence(..., batch_first=True)` pads to). -/
def maxLength (ls : List (List ℕ)) : ℕ := ls.foldr (fun s a => max s.length a) 0

/-- `torch.nn.utils.rnn.pad_sequence(data, batch_first=True,
padding_value=0)`: right-pad every sequence of the batch to the length of
the longest member with id `0`. -/
def pad_sequence (data : List (List ℕ)) : List (List ℕ) :=
  data.map (fun s => s ++ List.replicate (maxLength data - s.length) 0)

/-- `collate_batch`: split the batch into data and labels, pad the data to
the longest member, truncate every row to `block_size`
(`padded[:, :block_size]`), pad with zeros up to `block_size` (`F.pad`),
and stack the labels.  `zip(*batch)` on an empty batch raises, modelled as
`none`. -/
def collate_batch (block_size : ℕ) (batch : List (List ℕ × ℕ)) :
    Option (List (List ℕ) × List ℕ) :=
  match batch with
  | [] => none
  | _ :: _ =>
    some
      (((pad_sequence (batch.map Prod.fst)).map (fun s => s.take block_size)).map
          (fun s => s ++ List.replicate (block_size - s.length) 0),
        batch.map Prod.snd)

/-- A language-modeling batch: rows of (input window, target window), each
of time length `T` over vocabulary `V`.  The row count is the batch size. -/
abbrev LMBatch (T V : ℕ) := List ((Fin T → Fin V) × (Fin T → Fin V))

/-- The per-batch loss computed inside `compute_perplexity`: run the
decoder on the batch, flatten batch and time axes, and take the mean
cross-entropy against the flattened targets. -/
def lmBatchLoss (e sq lg : ℚ → ℚ) {vocab_size block_size head_size num_heads T : ℕ}
    (M : Decoder vocab_size block_size head_size num_heads) (batch : LMBatch T vocab_size) :
    Option ℚ :=
  (Decoder.forward e sq M
      (fun (b : Fin batch.length) (t : Fin T) => (batch.get b).1 t)).map (fun logits =>
    crossEntropy e lg
      (fun p : Fin (batch.length * T) => logits p.divNat p.modNat)
      (fun p : Fin (batch.length * T) => (batch.get p.divNat).2 p.modNat))

/-- The accumulation loop of `compute_perplexity`: append each batch loss
to `losses` and stop as soon as `len(losses) >= eval_iters` (the check runs
after the append).  A failing batch loss aborts the run (`none`). -/
def perplexityLosses {β : Type} (lossOf : β → Option ℚ) (eval_iters : ℕ) :
    List β → List ℚ → Option (List ℚ)
  | [], acc => some acc
  | b :: rest, acc =>
    (lossOf b).bind (fun l =>
      if eval_iters ≤ (acc ++ [l]).length then some (acc ++ [l])
      else perplexityLosses lossOf eval_iters rest (acc ++ [l]))

/-- Mean of a list of rationals (`torch.tensor(losses).mean()`). -/
def listMean (l : List ℚ) : ℚ := l.sum / (l.length : ℚ)

/-- The module-level constant `eval_iters = 200` of `main.py` (line 22). -/
def main_eval_iters : ℕ := 200

/-- The default value of the `eval_iters` parameter in the signature
`def compute_perplexity(decoderLMmodel, data_loader, eval_iters=100)`. -/
def compute_perplexity_default : ℕ := 100

/-- `compute_perplexity`: accumulate per-batch cross-entropy losses (at
most `eval_iters` of them) and return `exp(mean(losses))`. -/
def compute_perplexity (e sq lg : ℚ → ℚ)
    {vocab_size block_size head_size num_heads T : ℕ}
    (M : Decoder vocab_size block_size head_size num_heads)
    (data_loader : List (LMBatch T vocab_size)) (eval_iters : ℕ) : Option ℚ :=
  (perplexityLosses (lmBatchLoss e sq lg M) eval_iters data_loader []).map
    (fun losses => e (listMean losses))

/-- A call of `compute_perplexity` without an explicit iteration bound: the
parameter default `eval_iters=100` applies. -/
def compute_perplexity_default_call (e sq lg : ℚ → ℚ)
    {vocab_size block_size head_size num_heads T : ℕ}
    (M : Decoder vocab_size block_size head_size num_heads)
    (data_loader : List (LMBatch T vocab_size)) : Option ℚ :=
  compute_perplexity e sq lg M data_loader compute_perplexity_default

/-- A classification batch after collation: rows of (token sequence of
time length `T`, class label). -/
abbrev ClsBatch (T V n_output : ℕ) := List ((Fin T → Fin V) × Fin n_output)

/-- Fold underlying `torch.max(outputs.data, 1)`: scan the candidate
indices and keep the first index attaining the maximum value. -/
def argmaxAux {n : ℕ} (f : Fin n → ℚ) : Option (Fin n) → List (Fin n) → Option (Fin n)
  | acc, [] => acc
  | none, j :: rest => argmaxAux f (some j) rest
  | some b, j :: rest => argmaxAux f (if f b < f j then some j else some b) rest

/-- The predicted class `torch.max(outputs.data, 1)[1]` for one row:
the first index attaining the maximal value (`none` only for an empty
class axis). -/
def argmax {n : ℕ} (f : Fin n → ℚ) : Option (Fin n) :=
  argmaxAux f none (List.finRange n)

/-- `(predicted == Y).sum().item()` for one batch: the number of rows
whose predicted class equals the label. -/
def countCorrect {n n_output : ℕ} (out : Fin n → Fin n_output → ℚ)
    (labels : Fin n → Fin n_output) : ℕ :=
  (Finset.univ.filter (fun b : Fin n => argmax (out b) = some (labels b))).card

/-- The loop of `compute_classifier_accuracy`: per batch, run the encoder,
add the number of correct predictions to `total_correct` and the batch size
to `total_samples`. -/
def accuracyLoop (e sq : ℚ → ℚ)
    {vocab_size block_size head_size num_heads n_hidden n_output T : ℕ}
    (M : Encoder vocab_size block_size head_size num_heads n_hidden n_output) :
    List (ClsBatch T vocab_size n_output) → ℕ × ℕ → Option (ℕ × ℕ)
  | [], acc => some acc
  | batch :: rest, (c, s) =>
    (Encoder.forward e sq M
        (fun (b : Fin batch.length) (t : Fin T) => (batch.get b).1 t)).bind (fun out =>
      accuracyLoop e sq M rest
        (c + countCorrect out (fun b => (batch.get b).2), s + batch.length))

/-- Total number of samples a loader yields. -/
def totalSamples {T V n_output : ℕ} (batches : List (ClsBatch T V n_output)) : ℕ :=
  (batches.map List.length).sum

/-- `compute_classifier_accuracy`: `100 * total_correct / total_samples`.
The division raises `ZeroDivisionError` when no sample was seen, modelled
as `none`. -/
def compute_classifier_accuracy (e sq : ℚ → ℚ)
    {vocab_size block_size head_size num_heads n_hidden n_output T : ℕ}
    (M : Encoder vocab_size block_size head_size num_heads n_hidden n_output)
    (data_loader : List (ClsBatch T vocab_size n_output)) : Option ℚ :=
  (accuracyLoop e sq M data_loader (0, 0)).bind (fun p =>
    if p.2 = 0 then none else some (100 * (p.1 : ℚ) / (p.2 : ℚ)))

/-- The valid values of the `-mode` flag (`choices=["e", "d", "se", "sd"]`). -/
def modeChoices : List String := ["e", "d", "se", "sd"]

/-- Outcome of one run of `main`: which pipeline ran, or the invalid-mode
message followed by a normal exit, or the usage-error exit that `argparse`
performs (exit status 2) when a supplied value is not among `choices`. -/
inductive MainOutcome where
  | ranClassifier
  | ranDecoder
  | ranSanityCheckEncoder
  | ranSanityCheckDecoder
  | printedInvalidMode
  | usageErrorExit
deriving DecidableEq

/-- `parser.parse_args()` restricted to the one declared flag.  The flag is
optional, so an absent flag parses to `None`; `argparse` rejects a supplied
value outside `choices` with a usage error and terminates the process with
exit status 2 (modelled as `none`; this library behavior is documented, not
part of the repository). -/
def parse_args (mode : Option String) : Option (Option String) :=
  match mode with
  | none => some none
  | some v => if v ∈ modeChoices then some (some v) else none

/-- `main`: parse the flag and dispatch on the mode value; any parsed value
other than the four pipelines (that is, the absent flag) falls through to
the invalid-mode message. -/
def main (mode : Option String) : MainOutcome :=
  match parse_args mode with
  | none => MainOutcome.usageErrorExit
  | some m =>
    if m = some "e" then MainOutcome.ranClassifier
    else if m = some "d" then MainOutcome.ranDecoder
    else if m = some "se" then MainOutcome.ranSanityCheckEncoder
    else if m = some "sd" then MainOutcome.ranSanityCheckDecoder
    else MainOutcome.printedInvalidMode

/-! Concrete instances used by witnesses and counterexamples. -/

/-- Constant stand-in for the abstract exponential/logarithm/square root;
it satisfies the positivity hypothesis of the real exponential. -/
def oneFun : ℚ → ℚ := fun _ => 1

/-- A concrete attention head over one channel with the given mode. -/
def tinyHead (d : Bool) : Head 1 1 :=
  ⟨fun _ _ => 1, fun _ _ => 1, fun _ _ => 1, d⟩

/-- A concrete one-position input tensor. -/
def tinyInput : Tensor3 1 1 1 := fun _ _ _ => 1

/-- A concrete multi-head attention module with one head. -/
def tinyMHA (d : Bool) : MultiHeadAttention (1 * 1) 1 1 :=
  ⟨fun _ => tinyHead d, fun _ _ => 1, fun _ => 1⟩

/-- The output of the single concrete head of `tinyMHA` on `tinyInput`:
its attention weight is `1` and the value projection of the input is `1`. -/
def tinyHeadOut : Fin 1 → Tensor3 1 1 1 := fun _ _ _ _ => 1

/-- A concrete decoder with vocabulary 1, block size 1 and no blocks. -/
def tinyDecoder : Decoder 1 1 1 1 :=
  ⟨fun _ _ => 1, fun _ _ => 1, [], ⟨fun _ => 1, fun _ => 0⟩, fun _ _ => 1, fun _ => 0⟩

/-- A concrete encoder with vocabulary 1, block size 1, one class and no
blocks. -/
def tinyEncoder : Encoder 1 1 1 1 1 1 :=
  ⟨fun _ _ => 1, fun _ _ => 1, [], ⟨fun _ => 1, fun _ => 0⟩,
    ⟨fun _ _ => 1, fun _ => 0, fun _ _ => 1, fun _ => 0⟩⟩

/-- A constant sampler standing in for `torch.multinomial`. -/
def tinyPick : (Fin 1 → ℚ) → Fin 1 := fun _ => 0

/-- A concrete one-row language-modeling batch. -/
def tinyLMBatch : LMBatch 1 1 := [(fun _ => 0, fun _ => 0)]

/-- A concrete one-row language-modeling batch with an empty time axis. -/
def tinyLMBatch0 : LMBatch 0 1 := [(Fin.elim0, Fin.elim0)]

/-- A concrete one-row classification batch whose label is class 0. -/
def tinyClsBatch : ClsBatch 1 1 1 := [(fun _ => 0, 0)]

/-! Helper lemmas. -/

theorem trilSlice_eq (block_size T : ℕ) (h : T ≤ block_size) :
    trilSlice block_size T =
      some (fun i j : Fin T => if (j : ℕ) ≤ (i : ℕ) then (1 : ℚ) else 0) := by
  simp only [trilSlice, dif_pos h]
  rfl

theorem trilSlice_none (block_size T : ℕ) (h : block_size < T) :
    trilSlice block_size T = none := by
  simp only [trilSlice, dif_neg (Nat.not_le.mpr h)]

theorem softmaxMasked_eq_zero {T : ℕ} (e : ℚ → ℚ) (row : Fin T → Option ℚ)
    (j : Fin T) (h : row j = none) : softmaxMasked e row j = 0 := by
  simp [softmaxMasked, maskedExp, h]

theorem softmax_pos {T : ℕ} (e : ℚ → ℚ) (he : ∀ a, 0 < e a) (row : Fin T → ℚ)
    (j : Fin T) : 0 < softmax e row j := by
  have hden : 0 < ∑ j', maskedExp e (fun j'' => some (row j'')) j' :=
    Finset.sum_pos (fun i _ => he (row i)) ⟨j, Finset.mem_univ j⟩
  exact div_pos (he (row j)) hden

theorem softmax_nonneg {T : ℕ} (e : ℚ → ℚ) (he : ∀ a, 0 < e a) (row : Fin T → ℚ)
    (j : Fin T) : 0 ≤ softmax e row j :=
  le_of_lt (softmax_pos e he row j)

theorem softmax_sum_eq_one {T : ℕ} (e : ℚ → ℚ) (he : ∀ a, 0 < e a) (hT : 0 < T)
    (row : Fin T → ℚ) : ∑ j, softmax e row j = 1 := by
  have hden : 0 < ∑ j', maskedExp e (fun j'' => some (row j'')) j' :=
    Finset.sum_pos (fun i _ => he (row i)) ⟨⟨0, hT⟩, Finset.mem_univ _⟩
  simp only [softmax, softmaxMasked]
  rw [← Finset.sum_div]
  exact div_self (ne_of_gt hden)

/-! Claim C1: causal masking of the attention weights. -/

/-- C1: for a causal (decoding-mode) attention head over any input of
sequence length `1 ≤ T ≤ block_size`, the normalized attention weight
matrix assigns exactly zero weight from every position `i` to every
position `j > i`; for a non-causal head no such constraint is imposed and
every position receives strictly positive weight from every position
(given the positivity of the exponential). -/
theorem claim_causal_masking (e sq : ℚ → ℚ) (block_size : ℕ)
    {n_embd head_size B T : ℕ} (H : Head n_embd head_size) (x : Tensor3 B T n_embd)
    (hT1 : 1 ≤ T) (hT2 : T ≤ block_size) (he : ∀ a, 0 < e a) :
    (H.decoding = true →
      ∃ w, Head.weights e sq block_size H x = some w ∧
        ∀ b (i j : Fin T), (i : ℕ) < (j : ℕ) → w b i j = 0) ∧
    (H.decoding = false →
      ∃ w, Head.weights e sq block_size H x = some w ∧
        ∀ b i j, 0 < w b i j) := by
  constructor
  · intro hd
    have hW : Head.weights e sq block_size H x =
        some (fun (b : Fin B) (i : Fin T) => softmaxMasked e (fun (j : Fin T) =>
          if (if (j : ℕ) ≤ (i : ℕ) then (1 : ℚ) else 0) = 0 then none
          else some (Head.scores sq H x b i j))) := by
      simp [Head.weights, hd, trilSlice_eq block_size T hT2]
    refine ⟨_, hW, fun b i j hij => ?_⟩
    apply softmaxMasked_eq_zero
    have hji : ¬ ((j : ℕ) ≤ (i : ℕ)) := Nat.not_le.mpr hij
    simp [hji]
  · intro hd
    have hW : Head.weights e sq block_size H x =
        some (fun b i => softmax e (Head.scores sq H x b i)) := by
      simp [Head.weights, hd]
    exact ⟨_, hW, fun b i j => softmax_pos e he _ j⟩

theorem claim_causal_masking_witness :
    ((1 ≤ 1 ∧ 1 ≤ 1) ∧ ∀ a : ℚ, 0 < oneFun a) ∧
      (((tinyHead true).decoding = true →
        ∃ w, Head.weights oneFun oneFun 1 (tinyHead true) tinyInput = some w ∧
          ∀ b (i j : Fin 1), (i : ℕ) < (j : ℕ) → w b i j = 0) ∧
      ((tinyHead true).decoding = false →
        ∃ w, Head.weights oneFun oneFun 1 (tinyHead true) tinyInput = some w ∧
          ∀ b i j, 0 < w b i j)) :=
  ⟨⟨⟨le_refl 1, le_refl 1⟩, fun _ => one_pos⟩,
    claim_causal_masking oneFun oneFun 1 (tinyHead true) tinyInput (le_refl 1)
      (le_refl 1) (fun _ => one_pos)⟩

/-! Claim C9: the masking step is well defined exactly for `T ≤ block_size`. -/

/-- C9: the causal mask is a fixed `block_size × block_size`
lower-triangular buffer sliced to the first `T` rows and columns; under the
precondition `T ≤ block_size` the slice is the `T × T` lower-triangular
matrix and the masking step (hence the weight computation) of a
decoding-mode head succeeds, while for `T > block_size` it fails. -/
theorem claim_causal_mask_welldefined (e sq : ℚ → ℚ) (block_size : ℕ)
    {n_embd head_size B T : ℕ} (H : Head n_embd head_size) (x : Tensor3 B T n_embd)
    (hd : H.decoding = true) :
    (∀ h : T ≤ block_size,
      trilSlice block_size T =
        some (fun i j : Fin T => if (j : ℕ) ≤ (i : ℕ) then (1 : ℚ) else 0) ∧
      (Head.weights e sq block_size H x).isSome) ∧
    (block_size < T → Head.weights e sq block_size H x = none) := by
  constructor
  · intro h
    refine ⟨trilSlice_eq block_size T h, ?_⟩
    simp [Head.weights, hd, trilSlice_eq block_size T h]
  · intro h
    simp [Head.weights, hd, trilSlice_none block_size T h]

theorem claim_causal_mask_welldefined_witness :
    (tinyHead true).decoding = true ∧
      ((∀ h : 1 ≤ 1,
        trilSlice 1 1 =
          some (fun i j : Fin 1 => if (j : ℕ) ≤ (i : ℕ) then (1 : ℚ) else 0) ∧
        (Head.weights oneFun oneFun 1 (tinyHead true) tinyInput).isSome) ∧
      (1 < 1 → Head.weights oneFun oneFun 1 (tinyHead true) tinyInput = none)) :=
  ⟨rfl, claim_causal_mask_welldefined oneFun oneFun 1 (tinyHead true) tinyInput rfl⟩

/-! Definedness of the forward passes for `T ≤ block_size`. -/

theorem head_weights_isSome (e sq : ℚ → ℚ) (block_size : ℕ)
    {n_embd head_size B T : ℕ} (hT : T ≤ block_size)
    (H : Head n_embd head_size) (x : Tensor3 B T n_embd) :
    (Head.weights e sq block_size H x).isSome := by
  cases hd : H.decoding
  · simp [Head.weights, hd]
  · simp [Head.weights, hd, trilSlice_eq block_size T hT]

theorem head_forward_isSome (e sq : ℚ → ℚ) (block_size : ℕ)
    {n_embd head_size B T : ℕ} (hT : T ≤ block_size)
    (H : Head n_embd head_size) (x : Tensor3 B T n_embd) :
    (Head.forward e sq block_size H x).isSome := by
  have h := head_weights_isSome e sq block_size hT H x
  simpa [Head.forward] using h

theorem mha_forward_some (e sq : ℚ → ℚ) (block_size : ℕ)
    {n_embd head_size num_heads B T : ℕ} (hT : T ≤ block_size)
    (M : MultiHeadAttention n_embd head_size num_heads) (x : Tensor3 B T n_embd) :
    ∃ y, MultiHeadAttention.forward e sq block_size M x = some y := by
  have h : ∀ i, (Head.forward e sq block_size (M.heads i) x).isSome :=
    fun i => head_forward_isSome e sq block_size hT (M.heads i) x
  have hs : (MultiHeadAttention.forward e sq block_size M x).isSome := by
    unfold MultiHeadAttention.forward
    rw [dif_pos h]
    rfl
  exact Option.isSome_iff_exists.mp hs

theorem runBlocks_some (e sq : ℚ → ℚ) (block_size : ℕ)
    {head_size num_heads B T : ℕ} (hT : T ≤ block_size) :
    ∀ (blocks : List (Block head_size num_heads))
      (x : Tensor3 B T (num_heads * head_size)),
      ∃ y, runBlocks e sq block_size blocks x = some y := by
  intro blocks
  induction blocks with
  | nil => exact fun x => ⟨x, rfl⟩
  | cons blk rest ih =>
    intro x
    obtain ⟨a, ha⟩ :=
      mha_forward_some e sq block_size hT blk.sa (fun b t => layerNorm sq blk.ln1 (x b t))
    have hz : (Block.forward e sq block_size blk x).isSome := by
      simp [Block.forward, ha]
    obtain ⟨z, hz⟩ := Option.isSome_iff_exists.mp hz
    obtain ⟨y, hy⟩ := ih z
    exact ⟨y, by simp [runBlocks, hz, hy]⟩

theorem decoder_forward_some (e sq : ℚ → ℚ)
    {vocab_size block_size head_size num_heads B T : ℕ} (hT : T ≤ block_size)
    (M : Decoder vocab_size block_size head_size num_heads)
    (idx : Fin B → Fin T → Fin vocab_size) :
    ∃ L, Decoder.forward e sq M idx = some L := by
  obtain ⟨y, hy⟩ := runBlocks_some e sq block_size hT M.blocks
    (fun b t c => M.token_embedding_table (idx b t) c +
      M.position_embedding_table (Fin.castLE hT t) c)
  have hs : (Decoder.forward e sq M idx).isSome := by
    unfold Decoder.forward
    rw [dif_pos hT, hy]
    rfl
  exact Option.isSome_iff_exists.mp hs

theorem encoder_forward_eq (e sq : ℚ → ℚ)
    {vocab_size block_size head_size num_heads n_hidden n_output B T : ℕ}
    (hT : T ≤ block_size)
    (M : Encoder vocab_size block_size head_size num_heads n_hidden n_output)
    (idx : Fin B → Fin T → Fin vocab_size) :
    ∃ xfin, runBlocks e sq block_size M.blocks
        (fun b t c => M.token_embedding_table (idx b t) c +
          M.position_embedding_table (Fin.castLE hT t) c) = some xfin ∧
      Encoder.forward e sq M idx =
        some (fun b => Classifier.forward e M.classifier
          (fun c => (∑ t, layerNorm sq M.ln_f (xfin b t) c) / (T : ℚ))) := by
  obtain ⟨y, hy⟩ := runBlocks_some e sq block_size hT M.blocks
    (fun b t c => M.token_embedding_table (idx b t) c +
      M.position_embedding_table (Fin.castLE hT t) c)
  refine ⟨y, hy, ?_⟩
  unfold Encoder.forward
  rw [dif_pos hT, hy, Option.map_some']

theorem tiny_head_forward_eval :
    ∀ i, Head.forward oneFun oneFun 1 ((tinyMHA true).heads i) tinyInput =
      some (tinyHeadOut i) := by
  intro i
  unfold Head.forward Head.weights
  rw [trilSlice_eq 1 1 (le_refl 1)]
  simp only [tinyMHA, tinyHead, Option.map_some']
  refine congrArg some ?_
  funext b t h
  simp [softmaxMasked, maskedExp, Head.scores, linearNB, dotProd, oneFun, tinyInput,
    tinyHeadOut, Fin.sum_univ_one]

/-! Claim C4: multi-head attention returns the plain concatenation. -/

/-- C4: when every head's forward pass is defined (with outputs `outs`),
`MultiHeadAttention.forward` returns exactly the concatenation of the head
outputs along the feature axis (entry `j` comes from head `j / head_size`
at column `j % head_size`), and the declared output projection does not
influence the result: replacing the projection parameters leaves the
output unchanged. -/
theorem claim_mha_concat_no_proj (e sq : ℚ → ℚ) (block_size : ℕ)
    {n_embd head_size num_heads B T : ℕ}
    (M : MultiHeadAttention n_embd head_size num_heads) (x : Tensor3 B T n_embd)
    (outs : Fin num_heads → Tensor3 B T head_size)
    (houts : ∀ i, Head.forward e sq block_size (M.heads i) x = some (outs i)) :
    MultiHeadAttention.forward e sq block_size M x =
      some (fun b t j => outs j.divNat b t j.modNat) ∧
    ∀ (pW : Mat n_embd (num_heads * head_size)) (pB : Fin n_embd → ℚ),
      MultiHeadAttention.forward e sq block_size ⟨M.heads, pW, pB⟩ x =
        MultiHeadAttention.forward e sq block_size M x := by
  have hdef : ∀ i, (Head.forward e sq block_size (M.heads i) x).isSome := by
    intro i
    rw [houts i]
    rfl
  constructor
  · unfold MultiHeadAttention.forward
    rw [dif_pos hdef]
    refine congrArg some ?_
    funext b t j
    have h2 := Option.some_inj.mp ((Option.some_get (hdef j.divNat)).trans (houts j.divNat))
    rw [h2]
  · intro pW pB
    rfl

theorem claim_mha_concat_no_proj_witness :
    (∀ i, Head.forward oneFun oneFun 1 ((tinyMHA true).heads i) tinyInput =
        some (tinyHeadOut i)) ∧
      (MultiHeadAttention.forward oneFun oneFun 1 (tinyMHA true) tinyInput =
        some (fun b t j => tinyHeadOut j.divNat b t j.modNat) ∧
      ∀ (pW : Mat (1 * 1) (1 * 1)) (pB : Fin (1 * 1) → ℚ),
        MultiHeadAttention.forward oneFun oneFun 1 ⟨(tinyMHA true).heads, pW, pB⟩ tinyInput =
          MultiHeadAttention.forward oneFun oneFun 1 (tinyMHA true) tinyInput) :=
  ⟨tiny_head_forward_eval,
    claim_mha_concat_no_proj oneFun oneFun 1 (tinyMHA true) tinyInput tinyHeadOut
      tiny_head_forward_eval⟩

/-! Claim C6: the encoder mean-pools, classifies, and returns softmax rows. -/

/-- C6: for every input batch of token ids with sequence length at most
`block_size`, `Encoder.forward` mean-pools the final per-position
representations over the time axis, hands that vector to the classifier
head, and returns one row per example over the `n_output` classes in which
every entry is non-negative and every row sums to `1` (softmax
normalization), given positivity of the exponential and a non-empty class
axis. -/
theorem claim_encoder_pool_softmax (e sq : ℚ → ℚ)
    {vocab_size block_size head_size num_heads n_hidden n_output B T : ℕ}
    (M : Encoder vocab_size block_size head_size num_heads n_hidden n_output)
    (idx : Fin B → Fin T → Fin vocab_size)
    (hT : T ≤ block_size) (hout : 0 < n_output) (he : ∀ a, 0 < e a) :
    ∃ out, Encoder.forward e sq M idx = some out ∧
      (∃ xfin, runBlocks e sq block_size M.blocks
          (fun b t c => M.token_embedding_table (idx b t) c +
            M.position_embedding_table (Fin.castLE hT t) c) = some xfin ∧
        out = fun b => Classifier.forward e M.classifier
          (fun c => (∑ t, layerNorm sq M.ln_f (xfin b t) c) / (T : ℚ))) ∧
      (∀ b c, 0 ≤ out b c) ∧ (∀ b, ∑ c, out b c = 1) := by
  obtain ⟨xfin, hrun, hfwd⟩ := encoder_forward_eq e sq hT M idx
  refine ⟨_, hfwd, ⟨xfin, hrun, rfl⟩, ?_, ?_⟩
  · intro b c
    exact softmax_nonneg e he _ c
  · intro b
    exact softmax_sum_eq_one e he hout _

theorem claim_encoder_pool_softmax_witness :
    ((1 ≤ 1 ∧ 0 < 1) ∧ ∀ a : ℚ, 0 < oneFun a) ∧
      (∃ out, Encoder.forward oneFun oneFun tinyEncoder
          (fun (_ : Fin 1) (_ : Fin 1) => (0 : Fin 1)) = some out ∧
        (∃ xfin, runBlocks oneFun oneFun 1 tinyEncoder.blocks
            (fun b t c => tinyEncoder.token_embedding_table ((fun (_ : Fin 1) (_ : Fin 1) => (0 : Fin 1)) b t) c +
              tinyEncoder.position_embedding_table (Fin.castLE (le_refl 1) t) c) = some xfin ∧
          out = fun b => Classifier.forward oneFun tinyEncoder.classifier
            (fun c => (∑ t, layerNorm oneFun tinyEncoder.ln_f (xfin b t) c) / ((1 : ℕ) : ℚ))) ∧
        (∀ b c, 0 ≤ out b c) ∧ (∀ b, ∑ c, out b c = 1)) :=
  ⟨⟨⟨le_refl 1, Nat.one_pos⟩, fun _ => one_pos⟩,
    claim_encoder_pool_softmax oneFun oneFun tinyEncoder
      (fun (_ : Fin 1) (_ : Fin 1) => (0 : Fin 1)) (le_refl 1) Nat.one_pos
      (fun _ => one_pos)⟩

/-! Claim C2: autoregressive generation length and seed preservation. -/

theorem generate_append (e sq : ℚ → ℚ)
    {vocab_size block_size head_size num_heads : ℕ} (hbs : 0 < block_size)
    (M : Decoder vocab_size block_size head_size num_heads)
    (pick : (Fin vocab_size → ℚ) → Fin vocab_size) :
    ∀ (n : ℕ) (idx : List (Fin vocab_size)), 0 < idx.length →
      ∃ ext, Decoder.generate e sq M pick idx n = some (idx ++ ext) ∧ ext.length = n := by
  intro n
  induction n with
  | zero => exact fun idx _ => ⟨[], by simp [Decoder.generate], rfl⟩
  | succ n ih =>
    intro idx hidx
    have hlen : (idx.drop (idx.length - block_size)).length =
        idx.length - (idx.length - block_size) := List.length_drop _ _
    have hpos : 0 < (idx.drop (idx.length - block_size)).length := by
      rw [hlen]; omega
    have hle : (idx.drop (idx.length - block_size)).length ≤ block_size := by
      rw [hlen]; omega
    obtain ⟨L, hL⟩ := decoder_forward_some e sq hle M
      (fun (_ : Fin 1) (t : Fin (idx.drop (idx.length - block_size)).length) =>
        (idx.drop (idx.length - block_size)).get t)
    have hstep : Decoder.generateStep e sq M idx =
        some (softmax e (L 0 ⟨(idx.drop (idx.length - block_size)).length - 1,
          Nat.sub_lt hpos Nat.one_pos⟩)) := by
      unfold Decoder.generateStep
      rw [hL, Option.some_bind, dif_pos hpos]
    obtain ⟨ext, hext, hlen'⟩ := ih (idx ++ [pick (softmax e (L 0
      ⟨(idx.drop (idx.length - block_size)).length - 1, Nat.sub_lt hpos Nat.one_pos⟩))])
      (by simp)
    refine ⟨pick (softmax e (L 0 ⟨(idx.drop (idx.length - block_size)).length - 1,
      Nat.sub_lt hpos Nat.one_pos⟩)) :: ext, ?_, by simp [hlen']⟩
    show (Decoder.generateStep e sq M idx).bind _ = _
    rw [hstep, Option.some_bind, hext]
    simp

/-- C2 (amended): for every non-empty seed sequence of length `S` and every
requested count `N ≥ 0`, `Decoder.generate` returns a sequence of length
exactly `S + N` whose first `S` elements equal the seed unchanged, for
every sampler; for the empty seed the selection of the final time step
fails (see the counterexample). -/
theorem claim_generate_length (e sq : ℚ → ℚ)
    {vocab_size block_size head_size num_heads : ℕ}
    (M : Decoder vocab_size block_size head_size num_heads)
    (pick : (Fin vocab_size → ℚ) → Fin vocab_size)
    (seed : List (Fin vocab_size)) (N : ℕ)
    (hbs : 0 < block_size) (hseed : 0 < seed.length) :
    ∃ out, Decoder.generate e sq M pick seed N = some out ∧
      out.length = seed.length + N ∧ out.take seed.length = seed := by
  obtain ⟨ext, h1, h2⟩ := generate_append e sq hbs M pick N seed hseed
  exact ⟨seed ++ ext, h1, by simp [h2], by simp⟩

theorem claim_generate_length_witness :
    ((0 < 1 ∧ 0 < 1) ∧
      ∃ out, Decoder.generate oneFun oneFun tinyDecoder tinyPick [(0 : Fin 1)] 2 = some out ∧
        out.length = [(0 : Fin 1)].length + 2 ∧ out.take [(0 : Fin 1)].length = [(0 : Fin 1)]) :=
  ⟨⟨Nat.one_pos, Nat.one_pos⟩,
    claim_generate_length oneFun oneFun tinyDecoder tinyPick [(0 : Fin 1)] 2
      Nat.one_pos Nat.one_pos⟩

/-- C2 (counterexample to the claim as stated): for the empty seed and one
requested token, `Decoder.generate` fails (`logits[:, -1, :]` on a
zero-length time axis) instead of returning a sequence of length `0 + 1`. -/
theorem claim_generate_length_cex :
    Decoder.generate oneFun oneFun tinyDecoder tinyPick ([] : List (Fin 1)) 1 = none := by
  rfl

/-! Claim C3: the iteration bound of `compute_perplexity`. -/

theorem perplexityLosses_eq {β : Type} (lossOf : β → Option ℚ) (eval_iters : ℕ)
    (lossFn : β → ℚ) :
    ∀ (l : List β) (acc : List ℚ),
      (∀ b ∈ l, lossOf b = some (lossFn b)) →
      acc.length < eval_iters →
      perplexityLosses lossOf eval_iters l acc =
        some (acc ++ (l.map lossFn).take (eval_iters - acc.length)) := by
  intro l
  induction l with
  | nil =>
    intro acc _ _
    simp [perplexityLosses]
  | cons b rest ih =>
    intro acc hall hacc
    have hb : lossOf b = some (lossFn b) := hall b (List.mem_cons_self b rest)
    by_cases hstop : eval_iters ≤ (acc ++ [lossFn b]).length
    · have h1 : eval_iters - acc.length = 1 := by
        simp only [List.length_append, List.length_singleton] at hstop
        omega
      rw [perplexityLosses, hb, Option.some_bind, if_pos hstop, h1]
      simp
    · have hlt : (acc ++ [lossFn b]).length < eval_iters := Nat.lt_of_not_le hstop
      have hrec := ih (acc ++ [lossFn b])
        (fun x hx => hall x (List.mem_cons_of_mem b hx)) hlt
      rw [perplexityLosses, hb, Option.some_bind, if_neg hstop, hrec]
      have h2 : eval_iters - acc.length = (eval_iters - (acc ++ [lossFn b]).length) + 1 := by
        simp only [List.length_append, List.length_singleton]
        omega
      rw [List.map_cons, h2, List.take_succ_cons, List.append_assoc]
      rfl

theorem tiny_lm_loss :
    lmBatchLoss oneFun oneFun oneFun tinyDecoder tinyLMBatch0 = some 0 := by
  simp [lmBatchLoss, Decoder.forward, runBlocks, crossEntropy]

/-- C3 (amended): for every data loader, `compute_perplexity` called
without an explicit iteration bound accumulates the per-batch
cross-entropy losses of at most 100 evaluation batches — the parameter
default is `eval_iters=100`, not the module-level constant 200 — and
returns exp of the mean of those accumulated losses. -/
theorem claim_perplexity_default_bound (e sq lg : ℚ → ℚ)
    {vocab_size block_size head_size num_heads T : ℕ}
    (M : Decoder vocab_size block_size head_size num_heads)
    (data_loader : List (LMBatch T vocab_size)) (lossFn : LMBatch T vocab_size → ℚ)
    (hl : ∀ b ∈ data_loader, lmBatchLoss e sq lg M b = some (lossFn b)) :
    compute_perplexity_default = 100 ∧
    perplexityLosses (lmBatchLoss e sq lg M) compute_perplexity_default data_loader [] =
      some ((data_loader.map lossFn).take 100) ∧
    ((data_loader.map lossFn).take 100).length = min 100 data_loader.length ∧
    compute_perplexity_default_call e sq lg M data_loader =
      some (e (listMean ((data_loader.map lossFn).take 100))) := by
  have h := perplexityLosses_eq (lmBatchLoss e sq lg M) 100 lossFn data_loader [] hl
    (by norm_num)
  simp only [List.nil_append, Nat.sub_zero, List.length_nil] at h
  refine ⟨rfl, h, ?_, ?_⟩
  · simp [List.length_take]
  · show (perplexityLosses (lmBatchLoss e sq lg M) 100 data_loader []).map
        (fun losses => e (listMean losses)) = _
    rw [h, Option.map_some']

theorem claim_perplexity_default_bound_witness :
    (∀ b ∈ [tinyLMBatch0],
        lmBatchLoss oneFun oneFun oneFun tinyDecoder b = some ((fun _ => (0 : ℚ)) b)) ∧
      (compute_perplexity_default = 100 ∧
      perplexityLosses (lmBatchLoss oneFun oneFun oneFun tinyDecoder)
          compute_perplexity_default [tinyLMBatch0] [] =
        some (([tinyLMBatch0].map (fun _ => (0 : ℚ))).take 100) ∧
      (([tinyLMBatch0].map (fun _ => (0 : ℚ))).take 100).length =
        min 100 [tinyLMBatch0].length ∧
      compute_perplexity_default_call oneFun oneFun oneFun tinyDecoder [tinyLMBatch0] =
        some (oneFun (listMean (([tinyLMBatch0].map (fun _ => (0 : ℚ))).take 100)))) :=
  ⟨fun b hb => by rw [List.mem_singleton] at hb; rw [hb]; exact tiny_lm_loss,
    claim_perplexity_default_bound oneFun oneFun oneFun tinyDecoder [tinyLMBatch0]
      (fun _ => (0 : ℚ))
      (fun b hb => by rw [List.mem_singleton] at hb; rw [hb]; exact tiny_lm_loss)⟩

/-- C3 (counterexample to the claim as stated): on a loader of 150 batches
the call without an explicit bound accumulates the losses of only 100
batches, whereas a bound of 200 (the claim's stated default) would
accumulate all min(150, 200) = 150 of them. -/
theorem claim_perplexity_default_bound_cex :
    (perplexityLosses (lmBatchLoss oneFun oneFun oneFun tinyDecoder)
        compute_perplexity_default (List.replicate 150 tinyLMBatch0) []).map List.length =
      some 100 ∧
    (100 : ℕ) ≠ min (List.replicate 150 tinyLMBatch0).length main_eval_iters := by
  constructor
  · have h := perplexityLosses_eq (lmBatchLoss oneFun oneFun oneFun tinyDecoder) 100
      (fun _ => (0 : ℚ)) (List.replicate 150 tinyLMBatch0) []
      (fun b hb => by rw [List.eq_of_mem_replicate hb]; exact tiny_lm_loss)
      (by norm_num)
    show (perplexityLosses (lmBatchLoss oneFun oneFun oneFun tinyDecoder) 100
        (List.replicate 150 tinyLMBatch0) []).map List.length = some 100
    rw [h, Option.map_some']
    simp
  · rw [List.length_replicate]
    norm_num [main_eval_iters]

/-! Claim C5: collation produces sequences of length exactly `block_size`. -/

theorem le_maxLength (ls : List (List ℕ)) : ∀ s ∈ ls, s.length ≤ maxLength ls := by
  induction ls with
  | nil => simp
  | cons a t ih =>
    intro s hs
    rcases List.mem_cons.mp hs with h | h
    · rw [h]
      exact le_max_left _ _
    · exact le_trans (ih s h) (le_max_right _ _)

theorem collate_row (bsz m : ℕ) (s : List ℕ) (hs : s.length ≤ m) :
    ((s ++ List.replicate (m - s.length) 0).take bsz) ++
      List.replicate
        (bsz - ((s ++ List.replicate (m - s.length) 0).take bsz).length) 0 =
    s.take bsz ++ List.replicate (bsz - s.length) 0 := by
  rw [List.take_append_eq_append_take, List.take_replicate, List.append_assoc]
  congr 1
  rw [← List.replicate_add]
  congr 1
  simp only [List.length_append, List.length_take, List.length_replicate]
  omega

/-- C5: for every non-empty batch of (variable-length id sequence, label)
samples, `collate_batch` succeeds; every produced sequence has length
exactly `block_size`; each sequence is the original truncated from the
right to `block_size` and right-padded with id `0` up to `block_size`;
and the labels are stacked into one batch vector. -/
theorem claim_collate_batch (block_size : ℕ) (batch : List (List ℕ × ℕ))
    (hne : batch ≠ []) :
    ∃ seqs labels, collate_batch block_size batch = some (seqs, labels) ∧
      labels = batch.map Prod.snd ∧
      seqs = batch.map
        (fun p => p.1.take block_size ++ List.replicate (block_size - p.1.length) 0) ∧
      ∀ s ∈ seqs, s.length = block_size := by
  obtain ⟨p, bt, rfl⟩ : ∃ p bt, batch = p :: bt := by
    cases batch with
    | nil => exact absurd rfl hne
    | cons p bt => exact ⟨p, bt, rfl⟩
  refine ⟨_, _, rfl, rfl, ?_, ?_⟩
  · unfold pad_sequence
    rw [List.map_map, List.map_map, List.map_map]
    apply List.map_congr_left
    intro q hq
    have hqlen : q.1.length ≤ maxLength ((p :: bt).map Prod.fst) :=
      le_maxLength _ _ (List.mem_map_of_mem Prod.fst hq)
    exact collate_row block_size _ q.1 hqlen
  · intro s hs
    unfold pad_sequence at hs
    rw [List.map_map, List.map_map, List.map_map] at hs
    obtain ⟨q, hq, rfl⟩ := List.mem_map.mp hs
    simp only [Function.comp_apply, List.length_append, List.length_take,
      List.length_replicate]
    omega

theorem claim_collate_batch_witness :
    ([([0, 1, 2], 1), ([5], 0)] : List (List ℕ × ℕ)) ≠ [] ∧
      ∃ seqs labels,
        collate_batch 2 [([0, 1, 2], 1), ([5], 0)] = some (seqs, labels) ∧
        labels = ([([0, 1, 2], 1), ([5], 0)] : List (List ℕ × ℕ)).map Prod.snd ∧
        seqs = ([([0, 1, 2], 1), ([5], 0)] : List (List ℕ × ℕ)).map
          (fun p => p.1.take 2 ++ List.replicate (2 - p.1.length) 0) ∧
        ∀ s ∈ seqs, s.length = 2 :=
  ⟨by simp, claim_collate_batch 2 [([0, 1, 2], 1), ([5], 0)] (by simp)⟩

/-! Claims C7 and C10: classifier accuracy. -/

theorem accuracyLoop_eq (e sq : ℚ → ℚ)
    {vocab_size block_size head_size num_heads n_hidden n_output T : ℕ}
    (hT : T ≤ block_size)
    (M : Encoder vocab_size block_size head_size num_heads n_hidden n_output) :
    ∀ (batches : List (ClsBatch T vocab_size n_output)) (acc : ℕ × ℕ),
      ∃ k, k ≤ totalSamples batches ∧
        accuracyLoop e sq M batches acc =
          some (acc.1 + k, acc.2 + totalSamples batches) ∧
        ((∀ batch ∈ batches, ∀ out,
            Encoder.forward e sq M
              (fun (b : Fin batch.length) (t : Fin T) => (batch.get b).1 t) = some out →
            ∀ b, argmax (out b) = some ((batch.get b).2)) →
          k = totalSamples batches) := by
  intro batches
  induction batches with
  | nil =>
    intro acc
    refine ⟨0, le_refl 0, ?_, fun _ => rfl⟩
    simp [accuracyLoop, totalSamples]
  | cons batch rest ih =>
    intro acc
    obtain ⟨c, s⟩ := acc
    obtain ⟨xfin, hrun, hfwd⟩ := encoder_forward_eq e sq hT M
      (fun (b : Fin batch.length) (t : Fin T) => (batch.get b).1 t)
    obtain ⟨k, hk, hloop, hallk⟩ := ih
      (c + countCorrect (fun b => Classifier.forward e M.classifier
          (fun c' => (∑ t, layerNorm sq M.ln_f (xfin b t) c') / (T : ℚ)))
        (fun b => (batch.get b).2), s + batch.length)
    have hcc : countCorrect (fun b => Classifier.forward e M.classifier
        (fun c' => (∑ t, layerNorm sq M.ln_f (xfin b t) c') / (T : ℚ)))
        (fun b => (batch.get b).2) ≤ batch.length := by
      calc (Finset.univ.filter _).card ≤ Finset.univ.card := Finset.card_filter_le _ _
        _ = batch.length := by simp
    refine ⟨countCorrect (fun b => Classifier.forward e M.classifier
        (fun c' => (∑ t, layerNorm sq M.ln_f (xfin b t) c') / (T : ℚ)))
        (fun b => (batch.get b).2) + k, ?_, ?_, ?_⟩
    · have h1 : totalSamples (batch :: rest) = batch.length + totalSamples rest := by
        simp [totalSamples]
      omega
    · rw [accuracyLoop, hfwd, Option.some_bind, hloop]
      have h1 : totalSamples (batch :: rest) = batch.length + totalSamples rest := by
        simp [totalSamples]
      rw [h1]
      dsimp only
      rw [Nat.add_assoc, Nat.add_assoc]
    · intro hac
      have h1 : ∀ b, argmax ((fun b => Classifier.forward e M.classifier
          (fun c' => (∑ t, layerNorm sq M.ln_f (xfin b t) c') / (T : ℚ))) b) =
          some ((batch.get b).2) :=
        hac batch (List.mem_cons_self batch rest) _ hfwd
      have h2 : countCorrect (fun b => Classifier.forward e M.classifier
          (fun c' => (∑ t, layerNorm sq M.ln_f (xfin b t) c') / (T : ℚ)))
          (fun b => (batch.get b).2) = batch.length := by
        unfold countCorrect
        rw [Finset.filter_true_of_mem (fun b _ => h1 b)]
        simp
      have h3 : k = totalSamples rest :=
        hallk (fun b hb => hac b (List.mem_cons_of_mem batch hb))
      have h4 : totalSamples (batch :: rest) = batch.length + totalSamples rest := by
        simp [totalSamples]
      omega

/-- C7: given at least one evaluation sample (and sequence length within
`block_size` so the forward passes are defined),
`compute_classifier_accuracy` returns `100 * correct / total` where
`correct` counts samples whose predicted argmax class equals the label;
the value always lies in `[0, 100]`, and it equals exactly `100` when
every prediction's argmax class matches the true label. -/
theorem claim_accuracy_bounds (e sq : ℚ → ℚ)
    {vocab_size block_size head_size num_heads n_hidden n_output T : ℕ}
    (M : Encoder vocab_size block_size head_size num_heads n_hidden n_output)
    (data_loader : List (ClsBatch T vocab_size n_output))
    (hT : T ≤ block_size) (hpos : 0 < totalSamples data_loader) :
    ∃ correct a, correct ≤ totalSamples data_loader ∧
      a = 100 * (correct : ℚ) / (totalSamples data_loader : ℚ) ∧
      compute_classifier_accuracy e sq M data_loader = some a ∧
      0 ≤ a ∧ a ≤ 100 ∧
      ((∀ batch ∈ data_loader, ∀ out,
          Encoder.forward e sq M
            (fun (b : Fin batch.length) (t : Fin T) => (batch.get b).1 t) = some out →
          ∀ b, argmax (out b) = some ((batch.get b).2)) → a = 100) := by
  obtain ⟨k, hk, hloop, hallk⟩ := accuracyLoop_eq e sq hT M data_loader (0, 0)
  simp only [Nat.zero_add] at hloop
  have hsQ : (0 : ℚ) < (totalSamples data_loader : ℚ) := by
    exact_mod_cast hpos
  have hacc : compute_classifier_accuracy e sq M data_loader =
      some (100 * (k : ℚ) / (totalSamples data_loader : ℚ)) := by
    unfold compute_classifier_accuracy
    rw [hloop, Option.some_bind]
    rw [if_neg (Nat.pos_iff_ne_zero.mp hpos)]
  refine ⟨k, _, hk, rfl, hacc, ?_, ?_, ?_⟩
  · positivity
  · rw [div_le_iff₀ hsQ]
    have : (k : ℚ) ≤ (totalSamples data_loader : ℚ) := by exact_mod_cast hk
    nlinarith
  · intro hac
    have hk' : k = totalSamples data_loader := hallk hac
    rw [hk', mul_div_assoc, div_self (ne_of_gt hsQ), mul_one]

theorem claim_accuracy_bounds_witness :
    ((1 ≤ 1 ∧ 0 < totalSamples [tinyClsBatch]) ∧
      ∃ correct a, correct ≤ totalSamples [tinyClsBatch] ∧
        a = 100 * (correct : ℚ) / (totalSamples [tinyClsBatch] : ℚ) ∧
        compute_classifier_accuracy oneFun oneFun tinyEncoder [tinyClsBatch] = some a ∧
        0 ≤ a ∧ a ≤ 100 ∧
        ((∀ batch ∈ [tinyClsBatch], ∀ out,
            Encoder.forward oneFun oneFun tinyEncoder
              (fun (b : Fin batch.length) (t : Fin 1) => (batch.get b).1 t) = some out →
            ∀ b, argmax (out b) = some ((batch.get b).2)) → a = 100)) :=
  ⟨⟨le_refl 1, by simp [totalSamples, tinyClsBatch]⟩,
    claim_accuracy_bounds oneFun oneFun tinyEncoder [tinyClsBatch] (le_refl 1)
      (by simp [totalSamples, tinyClsBatch])⟩

/-- C10: `compute_classifier_accuracy` divides by the number of samples
seen, so (with defined forward passes, `T ≤ block_size`) its result is
undefined (`ZeroDivisionError`, modelled as `none`) exactly when the
loader yields zero samples; in particular it is undefined on the empty
loader. -/
theorem claim_accuracy_empty_loader (e sq : ℚ → ℚ)
    {vocab_size block_size head_size num_heads n_hidden n_output T : ℕ}
    (M : Encoder vocab_size block_size head_size num_heads n_hidden n_output)
    (data_loader : List (ClsBatch T vocab_size n_output))
    (hT : T ≤ block_size) :
    (compute_classifier_accuracy e sq M data_loader = none ↔
      totalSamples data_loader = 0) ∧
    compute_classifier_accuracy e sq M ([] : List (ClsBatch T vocab_size n_output)) =
      none := by
  obtain ⟨k, hk, hloop, hallk⟩ := accuracyLoop_eq e sq hT M data_loader (0, 0)
  simp only [Nat.zero_add] at hloop
  constructor
  · unfold compute_classifier_accuracy
    rw [hloop, Option.some_bind]
    constructor
    · intro h
      by_contra hzero
      rw [if_neg hzero] at h
      exact Option.some_ne_none _ h
    · intro h
      rw [if_pos h]
  · rfl

theorem claim_accuracy_empty_loader_witness :
    (1 ≤ 1) ∧
      ((compute_classifier_accuracy oneFun oneFun tinyEncoder
          ([] : List (ClsBatch 1 1 1)) = none ↔
        totalSamples ([] : List (ClsBatch 1 1 1)) = 0) ∧
      compute_classifier_accuracy oneFun oneFun tinyEncoder
        ([] : List (ClsBatch 1 1 1)) = none) :=
  ⟨le_refl 1,
    claim_accuracy_empty_loader oneFun oneFun tinyEncoder
      ([] : List (ClsBatch 1 1 1)) (le_refl 1)⟩

/-! Claim C8: dispatch of the `-mode` flag. -/

/-- C8 (amended): the four valid values of the mode flag dispatch to their
pipelines; an absent flag parses to `None`, falls through the dispatch
chain, prints the invalid-mode message and exits normally; but a supplied
value outside the choices is rejected by the argument parser with a usage
error and the abnormal exit status 2, before the dispatch chain runs: no
pipeline action and no invalid-mode message. -/
theorem claim_mode_dispatch (v : String) (hv : v ∉ modeChoices) :
    main (some "e") = MainOutcome.ranClassifier ∧
    main (some "d") = MainOutcome.ranDecoder ∧
    main (some "se") = MainOutcome.ranSanityCheckEncoder ∧
    main (some "sd") = MainOutcome.ranSanityCheckDecoder ∧
    main none = MainOutcome.printedInvalidMode ∧
    main (some v) = MainOutcome.usageErrorExit := by
  refine ⟨rfl, rfl, rfl, rfl, rfl, ?_⟩
  unfold main parse_args
  simp [hv]

theorem claim_mode_dispatch_witness :
    ("x" ∉ modeChoices) ∧
      (main (some "e") = MainOutcome.ranClassifier ∧
      main (some "d") = MainOutcome.ranDecoder ∧
      main (some "se") = MainOutcome.ranSanityCheckEncoder ∧
      main (some "sd") = MainOutcome.ranSanityCheckDecoder ∧
      main none = MainOutcome.printedInvalidMode ∧
      main (some "x") = MainOutcome.usageErrorExit) :=
  ⟨by decide, claim_mode_dispatch "x" (by decide)⟩

/-- C8 (counterexample to the claim as stated): supplying the invalid value
`"x"` makes the run end in the argparse usage-error exit (status 2), not in
the invalid-mode message with a normal exit. -/
theorem claim_mode_dispatch_cex :
    main (some "x") = MainOutcome.usageErrorExit ∧
      main (some "x") ≠ MainOutcome.printedInvalidMode := by
  constructor
  · rfl
  · intro h
    exact absurd h (by decide)

end PresidentClassifier
